import Mathlib

/-!
Verification of the memctx block-chain allocator (`src/memctx.h`).

The C code is shallowly embedded: a context is the chain of blocks reachable
from the head block (the context handle *is* the head block), a block is its
bookkeeping record, and `size_t` arithmetic is modeled as natural numbers
reduced modulo `2 ^ 64`.  Buffer addresses are abstracted: each block record
carries a ghost identity `bid` (block records are never reused, so identities
are handed out by a ghost counter `nextId`), and a pointer returned to the
caller is a pair of the identity of the block whose buffer backs it and the
byte offset inside that buffer.  `malloc` is modeled as succeeding; the
failure branches of the C code return before linking anything, so they leave
the modeled state unchanged.
-/

namespace Memctx

/-- `size_t` modulus `2 ^ 64`: the modeled platform has 64-bit `size_t` and
pointers. -/
def W : Nat := 18446744073709551616

/-- `MEMCTX_PAGE_SIZE` (4069 in `memctx.h`). -/
def PAGE : Nat := 4069

/-- Unsigned `size_t` subtraction `a - b`, wrapping modulo `2 ^ 64`;
faithful to C for operands below `W`. -/
def wsub (a b : Nat) : Nat := (W + a % W - b % W) % W

/-- `aligned_size = (size + sizeof(uintptr_t) - 1) & ~(sizeof(uintptr_t) - 1)`
from `memctx_alloc`, computed in `size_t` arithmetic: add 7 (wrapping modulo
`2 ^ 64`) and clear the low three bits. -/
def alignUp (size : Nat) : Nat := (size + 7) % W / 8 * 8

/-- One `MemContext` record of the chain.  `bid` is the ghost identity of the
record (abstracting its address); `fileData = some bytes` marks a block created
by `memctx_open_file`, carrying its buffer contents (the file bytes plus the
terminating zero byte the code appends). -/
structure Block where
  bid : Nat
  capacity : Nat
  consumed : Nat
  fileData : Option (List Nat)
  deriving DecidableEq

/-- A context: the chain of blocks from the head (the handle), plus the ghost
counter for fresh block identities. -/
structure State where
  blocks : List Block
  nextId : Nat
  deriving DecidableEq

/-- A pointer handed to the caller: identity of the backing block and byte
offset from the start of that block's `data` buffer. -/
structure Ptr where
  bid : Nat
  off : Nat
  deriving DecidableEq

/-- Trailing free space `capacity - consumed` of a block, in `size_t`
arithmetic. -/
def Block.free (b : Block) : Nat := wsub b.capacity b.consumed

/-- `memctx()`: a fresh context is a single empty block of capacity
`MEMCTX_PAGE_SIZE`. -/
def memctx : State := ⟨[⟨0, PAGE, 0, none⟩], 1⟩

/-- The search loop of `memctx_alloc`: walk the chain and bump the first block
whose trailing free space is at least `a`, returning the old `consumed` as the
pointer offset.  `none` when the walk reaches the end of the chain. -/
def bumpFirst (a : Nat) : List Block → Option (Ptr × List Block)
  | [] => none
  | b :: bs =>
    if a ≤ b.free then
      some (⟨b.bid, b.consumed⟩, { b with consumed := (b.consumed + a) % W } :: bs)
    else
      (bumpFirst a bs).map fun r => (r.1, b :: r.2)

/-- Capacity of a newly appended block:
`MEMCTX_PAGE_SIZE`, or for oversized requests
`((aligned_size + MEMCTX_PAGE_SIZE - 1) / MEMCTX_PAGE_SIZE) * MEMCTX_PAGE_SIZE`
computed in `size_t` arithmetic. -/
def newCapacity (a : Nat) : Nat :=
  if PAGE < a then (a + PAGE - 1) % W / PAGE * PAGE else PAGE

/-- `memctx_alloc` on a non-NULL context: reject `size == 0`; bump the first
block with room; otherwise append a fresh block at the tail whose `consumed`
starts at the aligned size, returning the start of its buffer. -/
def memctx_alloc (s : State) (size : Nat) : Option Ptr × State :=
  if size = 0 then (none, s)
  else
    match bumpFirst (alignUp size) s.blocks with
    | some (p, bs) => (some p, ⟨bs, s.nextId⟩)
    | none =>
      (some ⟨s.nextId, 0⟩,
        ⟨s.blocks ++ [⟨s.nextId, newCapacity (alignUp size), alignUp size, none⟩],
          s.nextId + 1⟩)

/-- `memctx_alloc` including the NULL-context guard (`!ctx`). -/
def memctx_alloc_top : Option State → Nat → Option Ptr × Option State
  | none, _ => (none, none)
  | some s, size => ((memctx_alloc s size).1, some (memctx_alloc s size).2)

/-- Result of one `memctx_open_file` call.  `result` is `(*buffer, return
value)` on success and `none` for the sentinel `*buffer = NULL; return 0`.
`allocated` and `freed` record, in order, the heap objects `malloc`ed and
`free`d during the call (`0` tags the `MemContext` record, `1` its `data`
buffer), so that leak-freedom of the failure paths can be stated. -/
structure OpenFileResult where
  result : Option (Ptr × Nat)
  state : State
  allocated : List Nat
  freed : List Nat
  deriving DecidableEq

/-- `memctx_open_file` on a non-NULL context.  The file system and allocator
environment are abstract inputs: `file` is `none` when the filename is NULL or
`fopen` fails, otherwise the file's bytes (whose count is what `ftell`
reports); `recOk`/`dataOk` tell whether the two `malloc` calls succeed, and
`readOk` whether `fread` returns the full size.  Mirrors the code path by
path: every failure path frees what it allocated and returns before touching
the chain; the success path links one fully consumed block at the tail,
holding the file bytes plus a terminating zero byte. -/
def memctx_open_file (s : State) (file : Option (List Nat))
    (recOk dataOk readOk : Bool) : OpenFileResult :=
  match file with
  | none => ⟨none, s, [], []⟩
  | some contents =>
    if contents.length = 0 then ⟨none, s, [], []⟩
    else if !recOk then ⟨none, s, [], []⟩
    else if !dataOk then ⟨none, s, [0], [0]⟩
    else if !readOk then ⟨none, s, [0, 1], [1, 0]⟩
    else
      ⟨some (⟨s.nextId, 0⟩, contents.length),
        ⟨s.blocks ++ [⟨s.nextId, contents.length, contents.length,
          some (contents ++ [0])⟩], s.nextId + 1⟩,
        [0, 1], []⟩

/-- `memctx_open_file` including the NULL-context guard; the second component
is the context after the call (`none` for an absent handle). -/
structure OpenFileResultTop where
  result : Option (Ptr × Nat)
  ctx : Option State
  allocated : List Nat
  freed : List Nat
  deriving DecidableEq

def memctx_open_file_top (octx : Option State) (file : Option (List Nat))
    (recOk dataOk readOk : Bool) : OpenFileResultTop :=
  match octx with
  | none => ⟨none, none, [], []⟩
  | some s =>
    let r := memctx_open_file s file recOk dataOk readOk
    ⟨r.result, some r.state, r.allocated, r.freed⟩

/-- The pointer `memctx_file` compares equal to `current->data` exactly when
it is the start of that block's buffer (live buffers occupy disjoint address
ranges). -/
def matchesBlock (p : Ptr) (b : Block) : Bool := b.bid == p.bid && p.off == 0

/-- The search-and-unlink loop of `memctx_free_file` over the tail of the
chain (the head has already been compared): `some` of the remaining tail with
the matched block removed, `none` when the walk falls off the end. -/
def removeFile : List Block → Ptr → Option (List Block)
  | [], _ => none
  | b :: bs, p =>
    if matchesBlock p b then some bs
    else (removeFile bs p).map fun r => b :: r

/-- `memctx_free_file`.  The result is `none` where the C code's behavior is
undefined: when the matched block is the head, the code frees the head record
the caller's handle still points to without unlinking it; and when no block
matches, the loop ends with `current == NULL` and the code executes
`prev->next = current->next` and `free(current->data)`, dereferencing a null
pointer.  A NULL context or NULL pointer returns with no effect. -/
def memctx_free_file (octx : Option State) (p : Option Ptr) : Option (Option State) :=
  match octx, p with
  | none, _ => some none
  | some s, none => some (some s)
  | some s, some ptr =>
    match s.blocks with
    | [] => some (some s)
    | b :: bs =>
      if matchesBlock ptr b then none
      else
        match removeFile bs ptr with
        | some bs' => some (some ⟨b :: bs', s.nextId⟩)
        | none => none

/-- One `snprintf(buf + off, bound, ...)` call rendering the byte line `line`:
at most `bound - 1` bytes of the line are stored, followed by a terminating
zero at the next cell.  (The call's return value — the full untruncated
length — is what `memctx_description` adds to its running offset.) -/
def snprintfWrite (buf : List Nat) (off bound : Nat) (line : List Nat) : List Nat :=
  buf.take off ++ line.take (min line.length (bound - 1)) ++ [0] ++
    buf.drop (off + min line.length (bound - 1) + 1)

/-- The second pass of `memctx_description`: write each line at the running
offset, every call bounded by the same `bound = buffer_size`, advancing the
offset by the full line length `snprintf` returns. -/
def descWrite (bound : Nat) : List Nat → Nat → List (List Nat) → List Nat
  | buf, _, [] => buf
  | buf, off, l :: ls => descWrite bound (snprintfWrite buf off bound l) (off + l.length) ls

/-- `memctx_description` on a non-NULL context, abstracted over the formatted
line of each block (the `%p`-rendered addresses are implementation-defined, so
`lines` holds one arbitrary byte line per block).  First pass: `buffer_size`
is the exact sum of the line lengths.  Then `malloc(buffer_size + 1)` with the
last cell zeroed (unwritten cells are modeled as zero; every run below writes
all cells it exposes).  Second pass: `descWrite` with bound `buffer_size`. -/
def memctx_description (lines : List (List Nat)) : List Nat :=
  descWrite ((lines.map List.length).sum)
    (List.replicate ((lines.map List.length).sum + 1) 0) 0 lines

/-- The C string a returned buffer holds: its bytes up to the first zero. -/
def cString (buf : List Nat) : List Nat := buf.takeWhile (· ≠ 0)

/-- One observable operation on a context, for reachability.  `P` restricts
the sizes passed to `memctx_alloc` (the full `size_t` range, or a subrange).
`memctx_free_file` contributes a step only where its behavior is defined and
the handle survives.  File sizes come from `ftell`, a signed `long`. -/
inductive Step (P : Nat → Prop) : State → State → Prop where
  | alloc (s : State) (size : Nat) (h : P size) :
      Step P s (memctx_alloc s size).2
  | openFile (s : State) (file : Option (List Nat)) (recOk dataOk readOk : Bool)
      (h : ∀ c, file = some c → c.length < 2 ^ 63) :
      Step P s (memctx_open_file s file recOk dataOk readOk).state
  | freeFile (s s' : State) (p : Option Ptr)
      (h : memctx_free_file (some s) p = some (some s')) :
      Step P s s'

/-- States reachable from `memctx()` by `Step P` operations. -/
def ReachableP (P : Nat → Prop) (s : State) : Prop :=
  Relation.ReflTransGen (Step P) memctx s

/-- Reachable with arbitrary `size_t` allocation sizes. -/
def Reachable : State → Prop := ReachableP fun n => n < W

/-- Sizes for which the page-rounding `aligned_size + MEMCTX_PAGE_SIZE - 1`
in `memctx_alloc` does not wrap modulo `2 ^ 64`. -/
def GoodSize (n : Nat) : Prop := n < W ∧ (n < W - 4071 ∨ W - 8 < n)

/-- Reachable using only allocation sizes whose page rounding does not
overflow. -/
def SafeReachable : State → Prop := ReachableP GoodSize

/-- A block record whose fields are legal `size_t` values and that is either
well formed (`consumed ≤ capacity`) or one of the degenerate capacity-zero
blocks the overflowing append path creates. -/
def GoodOrDead (b : Block) : Prop :=
  b.capacity < W ∧ b.consumed < W ∧ (b.consumed ≤ b.capacity ∨ b.capacity = 0)

/-- Structural invariant needed for the aliasing argument: every block is
`GoodOrDead`, block identities are below the ghost counter, and no two blocks
share an identity. -/
def AllocInv (s : State) : Prop :=
  (∀ b ∈ s.blocks, GoodOrDead b) ∧ (∀ b ∈ s.blocks, b.bid < s.nextId) ∧
    (s.blocks.map Block.bid).Nodup

/-- The head block is the one `memctx()` made: page capacity, not a file
block, with its consumed mark a multiple of the pointer width and in range. -/
def HeadInv (s : State) : Prop :=
  ∃ h rest, s.blocks = h :: rest ∧ h.capacity = PAGE ∧ h.fileData = none ∧
    8 ∣ h.consumed ∧ h.consumed ≤ PAGE

/-- Full invariant of states reachable without overflowing page rounding. -/
def Inv (s : State) : Prop :=
  AllocInv s ∧ HeadInv s ∧
    (∀ b ∈ s.blocks, b.consumed ≤ b.capacity) ∧
    (∀ b ∈ s.blocks, b.fileData = none → 8 ∣ b.consumed) ∧
    (∀ b ∈ s.blocks, b.fileData.isSome → b.consumed = b.capacity)

/-- The part of the invariant that survives arbitrary (even overflowing)
allocation sizes. -/
def BaseInv (s : State) : Prop := AllocInv s ∧ HeadInv s

/-- Two returned regions — each a pointer plus its extent in bytes — overlap
when they lie in the same block's buffer and their half-open byte intervals
`[off, off + extent)` intersect. -/
def overlaps (r₁ r₂ : Ptr × Nat) : Prop :=
  r₁.1.bid = r₂.1.bid ∧ r₁.1.off < r₂.1.off + r₂.2 ∧ r₂.1.off < r₁.1.off + r₁.2

/-- Run a sequence of `memctx_alloc` calls, collecting each call's returned
pointer together with its aligned size (the extent of the region the caller
may use). -/
def allocSteps : State → List Nat → List (Option Ptr × Nat) × State
  | s, [] => ([], s)
  | s, n :: ns =>
    (((memctx_alloc s n).1, alignUp n) :: (allocSteps (memctx_alloc s n).2 ns).1,
      (allocSteps (memctx_alloc s n).2 ns).2)

/-- A region already handed out, as the state evolves: either it is settled
below its block's consumed mark, or its (capacity-zero) block has wrapped its
consumed mark to zero, after which that block never hands out a nonempty
region again. -/
def RegionOK (s : State) (p : Ptr) (e : Nat) : Prop :=
  p.bid < s.nextId ∧
    ∀ b ∈ s.blocks, b.bid = p.bid →
      (p.off + e ≤ b.consumed ∨ (b.capacity = 0 ∧ b.consumed = 0))

-- Arithmetic facts about the `size_t` operations.

theorem wsub_of_le {a b : Nat} (hb : b ≤ a) (ha : a < W) : wsub a b = a - b := by
  have h1 : a % W = a := Nat.mod_eq_of_lt ha
  have h2 : b % W = b := Nat.mod_eq_of_lt (Nat.lt_of_le_of_lt hb ha)
  unfold wsub
  rw [h1, h2]
  have h3 : W + a - b = W + (a - b) := by omega
  rw [h3, Nat.add_mod_left, Nat.mod_eq_of_lt (by unfold W at *; omega)]

theorem wsub_of_gt {a b : Nat} (ha : a < W) (hab : a < b) (hb : b < W) :
    wsub a b = W + a - b := by
  unfold wsub
  rw [Nat.mod_eq_of_lt ha, Nat.mod_eq_of_lt hb,
    Nat.mod_eq_of_lt (by unfold W at *; omega)]

theorem wsub_self {a : Nat} (ha : a < W) : wsub a a = 0 := by
  rw [wsub_of_le le_rfl ha]
  omega

theorem alignUp_dvd (size : Nat) : 8 ∣ alignUp size :=
  Dvd.intro_left ((size + 7) % W / 8) rfl

theorem alignUp_eq {size : Nat} (h : size + 7 < W) :
    alignUp size = (size + 7) / 8 * 8 := by
  unfold alignUp
  rw [Nat.mod_eq_of_lt h]

theorem alignUp_ge {size : Nat} (h : size + 7 < W) : size ≤ alignUp size := by
  rw [alignUp_eq h]
  omega

theorem alignUp_lt {size : Nat} (h : size + 7 < W) : alignUp size < size + 8 := by
  rw [alignUp_eq h]
  omega

theorem alignUp_le {size m : Nat} (hm : 8 ∣ m) (hsm : size ≤ m) (hw : m + 7 < W) :
    alignUp size ≤ m := by
  rw [alignUp_eq (by omega)]
  obtain ⟨k, rfl⟩ := hm
  omega

theorem alignUp_lt_W {size : Nat} (h : size < W) : alignUp size < W := by
  unfold alignUp
  have h1 : (size + 7) % W < W := Nat.mod_lt _ (by unfold W; omega)
  unfold W at *
  omega

theorem alignUp_of_wrap {size : Nat} (h1 : W - 8 < size) (h2 : size < W) :
    alignUp size = 0 := by
  unfold alignUp
  have h3 : size + 7 - W < W := by unfold W at *; omega
  have h4 : size + 7 = (size + 7 - W) + 1 * W := by unfold W at *; omega
  rw [h4, Nat.add_mul_mod_self_right, Nat.mod_eq_of_lt h3]
  unfold W at *
  omega

theorem alignUp_pos {size : Nat} (h0 : 0 < size) (h : size + 7 < W) :
    0 < alignUp size := Nat.lt_of_lt_of_le h0 (alignUp_ge h)

theorem newCapacity_eq_of_no_wrap {a : Nat} (ha : PAGE < a) (hw : a + PAGE - 1 < W) :
    newCapacity a = (a + PAGE - 1) / PAGE * PAGE := by
  unfold newCapacity
  rw [if_pos ha, Nat.mod_eq_of_lt hw]

theorem newCapacity_ge {a : Nat} (hw : a + PAGE - 1 < W) : a ≤ newCapacity a := by
  unfold newCapacity
  split
  · rw [Nat.mod_eq_of_lt hw]
    unfold PAGE at *
    omega
  · unfold PAGE at *
    omega

theorem newCapacity_lt_W {a : Nat} (ha : a < W) : newCapacity a < W := by
  unfold newCapacity
  split
  · have h1 : (a + PAGE - 1) % W < W := Nat.mod_lt _ (by unfold W; omega)
    unfold W PAGE at *
    omega
  · unfold W PAGE
    omega

theorem newCapacity_of_wrap {a : Nat} (h1 : W - 4068 ≤ a) (h2 : a < W) :
    newCapacity a = 0 := by
  unfold newCapacity
  rw [if_pos (by unfold PAGE W at *; omega)]
  have h3 : a + PAGE - 1 = (a + PAGE - 1 - W) + 1 * W := by unfold W PAGE at *; omega
  rw [h3, Nat.add_mul_mod_self_right,
    Nat.mod_eq_of_lt (by unfold W PAGE at *; omega)]
  have h4 : a + PAGE - 1 - W < PAGE := by unfold W PAGE at *; omega
  rw [Nat.div_eq_of_lt h4, Nat.zero_mul]

-- Structure of the `memctx_alloc` search loop.

theorem bumpFirst_eq_none {a : Nat} {bs : List Block} :
    bumpFirst a bs = none ↔ ∀ b ∈ bs, b.free < a := by
  induction bs with
  | nil => simp [bumpFirst]
  | cons b bs ih =>
    rw [bumpFirst]
    by_cases hb : a ≤ b.free
    · rw [if_pos hb]
      simp only [List.mem_cons]
      constructor
      · intro h
        exact absurd h (by simp)
      · intro h
        exact absurd (h b (Or.inl rfl)) (by omega)
    · rw [if_neg hb]
      simp only [Option.map_eq_none', ih, List.mem_cons]
      constructor
      · intro h c hc
        rcases hc with rfl | hc
        · omega
        · exact h c hc
      · intro h c hc
        exact h c (Or.inr hc)

theorem bumpFirst_eq_some {a : Nat} {bs bs' : List Block} {p : Ptr}
    (h : bumpFirst a bs = some (p, bs')) :
    ∃ l1 b l2, bs = l1 ++ b :: l2 ∧ (∀ c ∈ l1, c.free < a) ∧ a ≤ b.free ∧
      p = ⟨b.bid, b.consumed⟩ ∧
      bs' = l1 ++ { b with consumed := (b.consumed + a) % W } :: l2 := by
  induction bs generalizing bs' with
  | nil => simp [bumpFirst] at h
  | cons b bs ih =>
    rw [bumpFirst] at h
    by_cases hb : a ≤ b.free
    · rw [if_pos hb] at h
      simp only [Option.some.injEq, Prod.mk.injEq] at h
      obtain ⟨rfl, rfl⟩ := h
      exact ⟨[], b, bs, rfl, by simp, hb, rfl, rfl⟩
    · rw [if_neg hb] at h
      rcases hr : bumpFirst a bs with _ | ⟨q, cs⟩
      · rw [hr] at h
        simp at h
      · rw [hr] at h
        simp only [Option.map_some', Option.some.injEq, Prod.mk.injEq] at h
        obtain ⟨rfl, rfl⟩ := h
        obtain ⟨l1, c, l2, rfl, h1, h2, h3, rfl⟩ := ih hr
        refine ⟨b :: l1, c, l2, rfl, ?_, h2, h3, rfl⟩
        intro x hx
        rcases List.mem_cons.mp hx with rfl | hx
        · omega
        · exact h1 x hx

-- Structure of the `memctx_free_file` search loop.

theorem removeFile_eq_some {bs bs' : List Block} {p : Ptr}
    (h : removeFile bs p = some bs') :
    ∃ l1 b l2, bs = l1 ++ b :: l2 ∧ matchesBlock p b = true ∧ bs' = l1 ++ l2 := by
  induction bs generalizing bs' with
  | nil => simp [removeFile] at h
  | cons b bs ih =>
    rw [removeFile] at h
    by_cases hb : matchesBlock p b
    · rw [if_pos hb] at h
      simp only [Option.some.injEq] at h
      exact ⟨[], b, bs, rfl, hb, h.symm⟩
    · rw [if_neg hb] at h
      rcases hr : removeFile bs p with _ | cs
      · rw [hr] at h
        simp at h
      · rw [hr] at h
        simp only [Option.map_some', Option.some.injEq] at h
        obtain ⟨l1, c, l2, rfl, h1, rfl⟩ := ih hr
        exact ⟨b :: l1, c, l2, rfl, h1, by rw [← h]; rfl⟩

/-- Master case analysis of one `memctx_alloc` call: the `size == 0` guard,
the first-fit bump into an existing block, or the append of one fresh block
at the tail after an unsuccessful walk. -/
theorem memctx_alloc_cases (s : State) (n : Nat) :
    ((memctx_alloc s n).1 = none ∧ (memctx_alloc s n).2 = s ∧ n = 0) ∨
    (∃ l1 b l2, s.blocks = l1 ++ b :: l2 ∧ (∀ c ∈ l1, c.free < alignUp n) ∧
      alignUp n ≤ b.free ∧ n ≠ 0 ∧
      (memctx_alloc s n).1 = some ⟨b.bid, b.consumed⟩ ∧
      (memctx_alloc s n).2 =
        ⟨l1 ++ { b with consumed := (b.consumed + alignUp n) % W } :: l2, s.nextId⟩) ∨
    ((∀ b ∈ s.blocks, b.free < alignUp n) ∧ n ≠ 0 ∧
      (memctx_alloc s n).1 = some ⟨s.nextId, 0⟩ ∧
      (memctx_alloc s n).2 =
        ⟨s.blocks ++ [⟨s.nextId, newCapacity (alignUp n), alignUp n, none⟩],
          s.nextId + 1⟩) := by
  by_cases h0 : n = 0
  · left
    refine ⟨?_, ?_, h0⟩ <;> simp [memctx_alloc, h0]
  · rcases hb : bumpFirst (alignUp n) s.blocks with _ | ⟨p, bs⟩
    · right; right
      refine ⟨bumpFirst_eq_none.mp hb, h0, ?_, ?_⟩ <;> simp [memctx_alloc, h0, hb]
    · right; left
      obtain ⟨l1, b, l2, he, h1, h2, rfl, rfl⟩ := bumpFirst_eq_some hb
      refine ⟨l1, b, l2, he, h1, h2, h0, ?_, ?_⟩ <;> simp [memctx_alloc, h0, hb]

/-- For a well-formed block, a successful fit does not wrap: the consumed
mark moves up by exactly the aligned size and stays within capacity. -/
theorem bump_good {b : Block} {a : Nat} (hg : b.consumed ≤ b.capacity)
    (hcap : b.capacity < W) (hfit : a ≤ b.free) :
    (b.consumed + a) % W = b.consumed + a ∧ b.consumed + a ≤ b.capacity := by
  have h1 := wsub_of_le hg hcap
  unfold Block.free at hfit
  rw [h1] at hfit
  refine ⟨Nat.mod_eq_of_lt (by omega), by omega⟩

/-- A fully consumed well-formed block admits only the trivial fit `a = 0`,
and bumping it by 0 leaves it unchanged. -/
theorem bump_full {b : Block} {a : Nat} (hg : b.consumed = b.capacity)
    (hcap : b.capacity < W) (hfit : a ≤ b.free) :
    a = 0 ∧ { b with consumed := (b.consumed + a) % W } = b := by
  have h1 : b.free = 0 := by
    unfold Block.free
    rw [hg]
    exact wsub_self hcap
  have ha : a = 0 := by omega
  subst ha
  refine ⟨rfl, ?_⟩
  have : (b.consumed + 0) % W = b.consumed := by
    rw [Nat.add_zero]
    exact Nat.mod_eq_of_lt (by omega)
  rw [this]

theorem memctx_inv : Inv memctx := by
  refine ⟨⟨?_, ?_, ?_⟩, ⟨⟨0, PAGE, 0, none⟩, [], rfl, rfl, rfl, ⟨0, rfl⟩, ?_⟩, ?_, ?_, ?_⟩ <;>
    simp [memctx, GoodOrDead, W, PAGE]

theorem W_pos : 0 < W := by
  unfold W
  omega

theorem PAGE_lt_W : PAGE < W := by
  unfold PAGE W
  omega

-- Preservation of the invariants by each operation.

theorem allocInv_alloc {s : State} (hs : AllocInv s) {n : Nat} (hn : n < W) :
    AllocInv (memctx_alloc s n).2 := by
  obtain ⟨hg, hid, hnd⟩ := hs
  rcases memctx_alloc_cases s n with ⟨-, h2, -⟩ | ⟨l1, b, l2, he, -, hfit, -, -, h2⟩ |
    ⟨-, -, -, h2⟩
  · rw [h2]
    exact ⟨hg, hid, hnd⟩
  · rw [h2]
    rw [he] at hg hid hnd
    have hb : GoodOrDead b := hg b (by simp)
    refine ⟨?_, ?_, ?_⟩
    · intro x hx
      rcases List.mem_append.mp hx with hx | hx
      · exact hg x (by simp [hx])
      · rcases List.mem_cons.mp hx with rfl | hx
        · refine ⟨hb.1, Nat.mod_lt _ W_pos, ?_⟩
          rcases hb.2.2 with hgood | hdead
          · left
            have hbg := bump_good hgood hb.1 hfit
            show (b.consumed + alignUp n) % W ≤ b.capacity
            rw [hbg.1]
            exact hbg.2
          · exact Or.inr hdead
        · exact hg x (by simp [hx])
    · intro x hx
      rcases List.mem_append.mp hx with hx | hx
      · exact hid x (by simp [hx])
      · rcases List.mem_cons.mp hx with rfl | hx
        · exact hid b (by simp)
        · exact hid x (by simp [hx])
    · have hmap : (l1 ++ { b with consumed := (b.consumed + alignUp n) % W } :: l2).map
          Block.bid = (l1 ++ b :: l2).map Block.bid := by simp
      rw [hmap]
      exact hnd
  · rw [h2]
    have ha : alignUp n < W := alignUp_lt_W hn
    refine ⟨?_, ?_, ?_⟩
    · intro x hx
      rcases List.mem_append.mp hx with hx | hx
      · exact hg x hx
      · rcases List.mem_cons.mp hx with rfl | hx
        · refine ⟨newCapacity_lt_W ha, ha, ?_⟩
          by_cases hw : alignUp n + PAGE - 1 < W
          · exact Or.inl (newCapacity_ge hw)
          · exact Or.inr (newCapacity_of_wrap (by unfold PAGE at hw; omega) ha)
        · simp at hx
    · intro x hx
      rcases List.mem_append.mp hx with hx | hx
      · exact Nat.lt_succ_of_lt (hid x hx)
      · rcases List.mem_cons.mp hx with rfl | hx
        · exact Nat.lt_succ_self _
        · simp at hx
    · rw [List.map_append]
      refine List.Nodup.append hnd (by simp) ?_
      intro x hx hx2
      simp only [List.map_cons, List.map_nil, List.mem_singleton] at hx2
      obtain ⟨y, hy, rfl⟩ := List.mem_map.mp hx
      exact absurd hx2 (Nat.ne_of_lt (hid y hy))

theorem headInv_alloc {s : State} (hs : AllocInv s) (hh : HeadInv s) {n : Nat}
    (hn : n < W) : HeadInv (memctx_alloc s n).2 := by
  obtain ⟨h, rest, hbl, hcap, hfd, hdvd, hle⟩ := hh
  rcases memctx_alloc_cases s n with ⟨-, h2, -⟩ | ⟨l1, b, l2, he, -, hfit, -, -, h2⟩ |
    ⟨-, -, -, h2⟩
  · rw [h2]
    exact ⟨h, rest, hbl, hcap, hfd, hdvd, hle⟩
  · rw [h2]
    rcases l1 with _ | ⟨x, l1⟩
    · simp only [List.nil_append] at he ⊢
      rw [hbl] at he
      obtain ⟨rfl, rfl⟩ : b = h ∧ l2 = rest := by
        constructor <;> [exact (List.cons.injEq _ _ _ _ ▸ he).1.symm;
          exact (List.cons.injEq _ _ _ _ ▸ he).2.symm]
      have hgood : b.consumed ≤ b.capacity := by rw [hcap]; exact hle
      have hcw : b.capacity < W := by rw [hcap]; exact PAGE_lt_W
      refine ⟨_, l2, rfl, hcap, hfd, ?_, ?_⟩
      · rw [(bump_good hgood hcw hfit).1]
        exact Dvd.dvd.add hdvd (alignUp_dvd n)
      · rw [(bump_good hgood hcw hfit).1]
        have := (bump_good hgood hcw hfit).2
        rw [hcap] at this
        exact this
    · rw [hbl] at he
      obtain ⟨rfl, -⟩ : h = x ∧ rest = l1 ++ b :: l2 := by simpa using he
      exact ⟨h, _, rfl, hcap, hfd, hdvd, hle⟩
  · rw [h2]
    rw [hbl]
    exact ⟨h, _, rfl, hcap, hfd, hdvd, hle⟩

theorem allocInv_append {s : State} (hs : AllocInv s) {b : Block}
    (hb : GoodOrDead b) (hbid : b.bid = s.nextId) {m : Nat} (hm : s.nextId < m) :
    AllocInv ⟨s.blocks ++ [b], m⟩ := by
  obtain ⟨hg, hid, hnd⟩ := hs
  refine ⟨?_, ?_, ?_⟩
  · intro x hx
    rcases List.mem_append.mp hx with hx | hx
    · exact hg x hx
    · rw [List.mem_singleton.mp hx]
      exact hb
  · intro x hx
    rcases List.mem_append.mp hx with hx | hx
    · exact Nat.lt_of_lt_of_le (hid x hx) (Nat.le_of_lt hm)
    · rw [List.mem_singleton.mp hx, hbid]
      exact hm
  · rw [List.map_append]
    refine List.Nodup.append hnd (by simp) ?_
    intro x hx hx2
    simp only [List.map_cons, List.map_nil, List.mem_singleton] at hx2
    obtain ⟨y, hy, rfl⟩ := List.mem_map.mp hx
    have h3 := hid y hy
    rw [hbid] at hx2
    omega

theorem headInv_append {s : State} (hh : HeadInv s) (b : Block) (m : Nat) :
    HeadInv ⟨s.blocks ++ [b], m⟩ := by
  obtain ⟨h, rest, hbl, hcap, hfd, hdvd, hle⟩ := hh
  rw [hbl]
  exact ⟨h, rest ++ [b], rfl, hcap, hfd, hdvd, hle⟩

/-- State effect of one `memctx_open_file` call: either a failure path leaves
the chain untouched, or the success path appends the fully consumed file
block at the tail. -/
theorem memctx_open_file_state_cases (s : State) (file : Option (List Nat))
    (recOk dataOk readOk : Bool) :
    ((memctx_open_file s file recOk dataOk readOk).result = none ∧
      (memctx_open_file s file recOk dataOk readOk).state = s) ∨
    (∃ contents, file = some contents ∧ contents.length ≠ 0 ∧
      recOk = true ∧ dataOk = true ∧ readOk = true ∧
      (memctx_open_file s file recOk dataOk readOk).result =
        some (⟨s.nextId, 0⟩, contents.length) ∧
      (memctx_open_file s file recOk dataOk readOk).state =
        ⟨s.blocks ++ [⟨s.nextId, contents.length, contents.length,
          some (contents ++ [0])⟩], s.nextId + 1⟩) := by
  rcases file with _ | contents
  · left
    exact ⟨rfl, rfl⟩
  · by_cases hl : contents.length = 0
    · left
      refine ⟨?_, ?_⟩ <;> simp [memctx_open_file, hl]
    · cases recOk
      · left
        refine ⟨?_, ?_⟩ <;> simp [memctx_open_file, hl]
      · cases dataOk
        · left
          refine ⟨?_, ?_⟩ <;> simp [memctx_open_file, hl]
        · cases readOk
          · left
            refine ⟨?_, ?_⟩ <;> simp [memctx_open_file, hl]
          · right
            refine ⟨contents, rfl, hl, rfl, rfl, rfl, ?_, ?_⟩ <;>
              simp [memctx_open_file, hl]

/-- Defined outcomes of `memctx_free_file` on a live context: the NULL-pointer
no-op, or the removal of one matched non-head block. -/
theorem memctx_free_file_cases {s s' : State} {p : Option Ptr}
    (h : memctx_free_file (some s) p = some (some s')) :
    s' = s ∨ ∃ b l1 c l2, s.blocks = b :: (l1 ++ c :: l2) ∧
      s' = ⟨b :: (l1 ++ l2), s.nextId⟩ := by
  rcases p with _ | ptr
  · left
    simp only [memctx_free_file, Option.some.injEq] at h
    exact h.symm
  · rcases hbl : s.blocks with _ | ⟨b, bs⟩
    · simp only [memctx_free_file, hbl, Option.some.injEq] at h
      left
      exact h.symm
    · by_cases hm : matchesBlock ptr b
      · simp [memctx_free_file, hbl, hm] at h
      · rcases hr : removeFile bs ptr with _ | bs'
        · simp [memctx_free_file, hbl, hm, hr] at h
        · simp only [memctx_free_file, hbl, hm, hr, if_neg, Bool.false_eq_true,
            not_false_eq_true, Option.some.injEq] at h
          obtain ⟨l1, c, l2, rfl, hmc, rfl⟩ := removeFile_eq_some hr
          right
          exact ⟨b, l1, c, l2, rfl, h.symm⟩

theorem allocInv_remove {s : State} (hs : AllocInv s) {b c : Block}
    {l1 l2 : List Block} (he : s.blocks = b :: (l1 ++ c :: l2)) :
    AllocInv ⟨b :: (l1 ++ l2), s.nextId⟩ := by
  obtain ⟨hg, hid, hnd⟩ := hs
  rw [he] at hg hid hnd
  have hsub : List.Sublist (b :: (l1 ++ l2)) (b :: (l1 ++ c :: l2)) :=
    List.Sublist.cons₂ b (List.Sublist.append_left (List.sublist_cons_self c l2) l1)
  refine ⟨?_, ?_, ?_⟩
  · intro x hx
    exact hg x (hsub.subset hx)
  · intro x hx
    exact hid x (hsub.subset hx)
  · exact List.Nodup.sublist (List.Sublist.map Block.bid hsub) hnd

theorem headInv_remove {s : State} (hh : HeadInv s) {b c : Block}
    {l1 l2 : List Block} (he : s.blocks = b :: (l1 ++ c :: l2)) :
    HeadInv ⟨b :: (l1 ++ l2), s.nextId⟩ := by
  obtain ⟨h, rest, hbl, hcap, hfd, hdvd, hle⟩ := hh
  rw [hbl] at he
  obtain ⟨rfl, -⟩ : h = b ∧ rest = l1 ++ c :: l2 := by simpa using he
  exact ⟨h, l1 ++ l2, rfl, hcap, hfd, hdvd, hle⟩

theorem inv_alloc {s : State} (hs : Inv s) {n : Nat} (hgs : GoodSize n) :
    Inv (memctx_alloc s n).2 := by
  obtain ⟨ha, hh, hcc, hdv, hff⟩ := hs
  obtain ⟨hn, hrange⟩ := hgs
  refine ⟨allocInv_alloc ha hn, headInv_alloc ha hh hn, ?_⟩
  rcases memctx_alloc_cases s n with ⟨-, h2, -⟩ | ⟨l1, b, l2, he, -, hfit, -, -, h2⟩ |
    ⟨hnofit, -, -, h2⟩
  · rw [h2]
    exact ⟨hcc, hdv, hff⟩
  · have hbmem : b ∈ s.blocks := by rw [he]; simp
    have hcw : b.capacity < W := ((ha.1 b hbmem).1)
    by_cases hfile : b.fileData.isSome
    · have hv := bump_full (hff b hbmem hfile) hcw hfit
      rw [h2, hv.2]
      have hstate : (⟨l1 ++ b :: l2, s.nextId⟩ : State) = s := by
        cases s
        simp only [State.mk.injEq]
        exact ⟨he.symm, trivial⟩
      rw [hstate]
      exact ⟨hcc, hdv, hff⟩
    · have hnone : b.fileData = none := Option.not_isSome_iff_eq_none.mp hfile
      have hbg := bump_good (hcc b hbmem) hcw hfit
      rw [h2]
      refine ⟨?_, ?_, ?_⟩
      · intro x hx
        simp only [List.mem_append, List.mem_cons] at hx
        rcases hx with hx | rfl | hx
        · exact hcc x (by rw [he]; simp [hx])
        · show (b.consumed + alignUp n) % W ≤ b.capacity
          rw [hbg.1]
          exact hbg.2
        · exact hcc x (by rw [he]; simp [hx])
      · intro x hx
        simp only [List.mem_append, List.mem_cons] at hx
        rcases hx with hx | rfl | hx
        · exact hdv x (by rw [he]; simp [hx])
        · intro _
          show 8 ∣ (b.consumed + alignUp n) % W
          rw [hbg.1]
          exact Dvd.dvd.add (hdv b hbmem hnone) (alignUp_dvd n)
        · exact hdv x (by rw [he]; simp [hx])
      · intro x hx
        simp only [List.mem_append, List.mem_cons] at hx
        rcases hx with hx | rfl | hx
        · exact hff x (by rw [he]; simp [hx])
        · intro hmm
          exact absurd hmm (by simpa using hfile)
        · exact hff x (by rw [he]; simp [hx])
  · rcases hrange with hlow | hhigh
    · have hle : alignUp n ≤ W - 4072 := by
        refine alignUp_le ?_ (by omega) (by unfold W; omega)
        unfold W
        omega
      have hcapge : alignUp n ≤ newCapacity (alignUp n) :=
        newCapacity_ge (by unfold W PAGE at *; omega)
      rw [h2]
      refine ⟨?_, ?_, ?_⟩
      · intro x hx
        rcases List.mem_append.mp hx with hx | hx
        · exact hcc x hx
        · rw [List.mem_singleton.mp hx]
          exact hcapge
      · intro x hx
        rcases List.mem_append.mp hx with hx | hx
        · exact hdv x hx
        · rw [List.mem_singleton.mp hx]
          intro _
          exact alignUp_dvd n
      · intro x hx
        rcases List.mem_append.mp hx with hx | hx
        · exact hff x hx
        · rw [List.mem_singleton.mp hx]
          intro hmm
          exact absurd hmm (by simp)
    · exfalso
      obtain ⟨hd, rest, hbl, -, -, -, -⟩ := hh
      have := hnofit hd (by rw [hbl]; simp)
      rw [alignUp_of_wrap hhigh hn] at this
      omega

theorem inv_openFile {s : State} (hs : Inv s) {file : Option (List Nat)}
    {recOk dataOk readOk : Bool} (hlen : ∀ c, file = some c → c.length < 2 ^ 63) :
    Inv (memctx_open_file s file recOk dataOk readOk).state := by
  obtain ⟨ha, hh, hcc, hdv, hff⟩ := hs
  rcases memctx_open_file_state_cases s file recOk dataOk readOk with ⟨-, h2⟩ |
    ⟨contents, hfe, hne, -, -, -, -, h2⟩
  · rw [h2]
    exact ⟨ha, hh, hcc, hdv, hff⟩
  · rw [h2]
    have hlw : contents.length < W := by
      have := hlen contents hfe
      unfold W at *
      omega
    refine ⟨allocInv_append ha ⟨hlw, hlw, Or.inl le_rfl⟩ rfl (Nat.lt_succ_self _),
      headInv_append hh _ _, ?_, ?_, ?_⟩
    · intro x hx
      rcases List.mem_append.mp hx with hx | hx
      · exact hcc x hx
      · rw [List.mem_singleton.mp hx]
    · intro x hx
      rcases List.mem_append.mp hx with hx | hx
      · exact hdv x hx
      · rw [List.mem_singleton.mp hx]
        intro hmm
        exact absurd hmm (by simp)
    · intro x hx
      rcases List.mem_append.mp hx with hx | hx
      · exact hff x hx
      · rw [List.mem_singleton.mp hx]
        intro _
        rfl

theorem inv_freeFile {s s' : State} (hs : Inv s)
    (h : memctx_free_file (some s) (p : Option Ptr) = some (some s')) : Inv s' := by
  obtain ⟨ha, hh, hcc, hdv, hff⟩ := hs
  rcases memctx_free_file_cases h with rfl | ⟨b, l1, c, l2, he, rfl⟩
  · exact ⟨ha, hh, hcc, hdv, hff⟩
  · have hsub : List.Sublist (b :: (l1 ++ l2)) (b :: (l1 ++ c :: l2)) :=
      List.Sublist.cons₂ b (List.Sublist.append_left (List.sublist_cons_self c l2) l1)
    refine ⟨allocInv_remove ⟨ha.1, ha.2.1, ha.2.2⟩ he, headInv_remove hh he, ?_, ?_, ?_⟩
    · intro x hx
      exact hcc x (by rw [he]; exact hsub.subset hx)
    · intro x hx
      exact hdv x (by rw [he]; exact hsub.subset hx)
    · intro x hx
      exact hff x (by rw [he]; exact hsub.subset hx)

theorem inv_step {s s' : State} (hs : Inv s) (h : Step GoodSize s s') : Inv s' := by
  cases h with
  | alloc size hP => exact inv_alloc hs hP
  | openFile file recOk dataOk readOk hlen => exact inv_openFile hs hlen
  | freeFile t p hf => exact inv_freeFile hs hf

theorem inv_of_safeReachable {s : State} (h : SafeReachable s) : Inv s := by
  unfold SafeReachable ReachableP at h
  induction h with
  | refl => exact memctx_inv
  | tail _ hstep ih => exact inv_step ih hstep

theorem baseInv_step {s s' : State} (hs : BaseInv s)
    (h : Step (fun n => n < W) s s') : BaseInv s' := by
  cases h with
  | alloc size hP => exact ⟨allocInv_alloc hs.1 hP, headInv_alloc hs.1 hs.2 hP⟩
  | openFile file recOk dataOk readOk hlen =>
    rcases memctx_open_file_state_cases s file recOk dataOk readOk with ⟨-, h2⟩ |
      ⟨contents, hfe, -, -, -, -, -, h2⟩
    · rw [h2]
      exact hs
    · rw [h2]
      have hlw : contents.length < W := by
        have := hlen contents hfe
        unfold W at *
        omega
      exact ⟨allocInv_append hs.1 ⟨hlw, hlw, Or.inl le_rfl⟩ rfl (Nat.lt_succ_self _),
        headInv_append hs.2 _ _⟩
  | freeFile t p hf =>
    rcases memctx_free_file_cases hf with rfl | ⟨b, l1, c, l2, he, rfl⟩
    · exact hs
    · exact ⟨allocInv_remove hs.1 he, headInv_remove hs.2 he⟩

theorem baseInv_of_reachable {s : State} (h : Reachable s) : BaseInv s := by
  unfold Reachable ReachableP at h
  induction h with
  | refl => exact ⟨memctx_inv.1, memctx_inv.2.1⟩
  | tail _ hstep ih => exact baseInv_step ih hstep

-- The aliasing argument: regions handed out by `memctx_alloc` never overlap.

theorem free_dead {b : Block} (hcap : b.capacity = 0) (hcon : b.consumed = 0) :
    b.free = 0 := by
  unfold Block.free wsub W
  rw [hcap, hcon]

theorem free_corrupt {b : Block} (hcap : b.capacity = 0) (h0 : 0 < b.consumed)
    (hw : b.consumed < W) : b.free = W - b.consumed := by
  unfold Block.free
  rw [hcap]
  rw [wsub_of_gt (by unfold W; omega) h0 hw]
  omega

/-- How the consumed mark of a block moves under a successful fit: either it
advances without wrapping, or (only for a capacity-zero block) it wraps
exactly to zero, leaving the block dead. -/
theorem bump_region_cases {b : Block} {a : Nat} (hgd : GoodOrDead b)
    (hfit : a ≤ b.free) :
    (b.consumed + a) % W = b.consumed + a ∨
    (b.capacity = 0 ∧ (b.consumed + a) % W = 0 ∧ b.consumed + a = W) := by
  obtain ⟨hcw, hnw, hgood | hdead⟩ := hgd
  · exact Or.inl (bump_good hgood hcw hfit).1
  · by_cases h0 : b.consumed = 0
    · left
      have ha : a = 0 := by
        have := free_dead hdead h0
        omega
      rw [ha, Nat.add_zero]
      exact Nat.mod_eq_of_lt hnw
    · have hfree := free_corrupt hdead (by omega) hnw
      rw [hfree] at hfit
      by_cases hlt : b.consumed + a < W
      · exact Or.inl (Nat.mod_eq_of_lt hlt)
      · right
        have heq : b.consumed + a = W := by omega
        refine ⟨hdead, ?_, heq⟩
        rw [heq]
        exact Nat.mod_self _

theorem nodup_bid_eq {l1 l2 : List Block} {b x : Block}
    (hnd : ((l1 ++ b :: l2).map Block.bid).Nodup)
    (hx : x ∈ l1 ∨ x ∈ l2) (hbid : x.bid = b.bid) : False := by
  rw [List.map_append, List.map_cons] at hnd
  have hnotin := (List.nodup_cons.mp (List.nodup_middle.mp hnd)).1
  apply hnotin
  rw [List.mem_append]
  rcases hx with hx | hx
  · exact Or.inl (by rw [← hbid]; exact List.mem_map_of_mem _ hx)
  · exact Or.inr (by rw [← hbid]; exact List.mem_map_of_mem _ hx)

/-- Any previously handed-out region stays `RegionOK` across one further
`memctx_alloc` call, whatever the size. -/
theorem regionOK_alloc {s : State} (hs : AllocInv s) {q : Ptr} {e : Nat}
    (hq : RegionOK s q e) (n : Nat) : RegionOK (memctx_alloc s n).2 q e := by
  obtain ⟨hqid, hqb⟩ := hq
  rcases memctx_alloc_cases s n with ⟨-, h2, -⟩ | ⟨l1, b, l2, he, -, hfit, -, -, h2⟩ |
    ⟨-, -, -, h2⟩
  · rw [h2]
    exact ⟨hqid, hqb⟩
  · rw [h2]
    refine ⟨hqid, ?_⟩
    intro x hx hbid
    simp only [List.mem_append, List.mem_cons] at hx
    rcases hx with hx | rfl | hx
    · exact hqb x (by rw [he]; simp [hx]) hbid
    · have hbid2 : b.bid = q.bid := hbid
      have hbmem : b ∈ s.blocks := by rw [he]; simp
      have hgd := hs.1 b hbmem
      rcases hqb b hbmem hbid2 with hset | ⟨hcap0, hcon0⟩
      · rcases bump_region_cases hgd hfit with hmod | ⟨hcap0, hmod, hW⟩
        · left
          show q.off + e ≤ (b.consumed + alignUp n) % W
          rw [hmod]
          omega
        · right
          exact ⟨hcap0, hmod⟩
      · have ha0 : alignUp n = 0 := by
          have := free_dead hcap0 hcon0
          omega
        right
        refine ⟨hcap0, ?_⟩
        show (b.consumed + alignUp n) % W = 0
        rw [ha0, hcon0]
        simp
    · exact hqb x (by rw [he]; simp [hx]) hbid
  · rw [h2]
    refine ⟨Nat.lt_succ_of_lt hqid, ?_⟩
    intro x hx hbid
    rcases List.mem_append.mp hx with hx | hx
    · exact hqb x hx hbid
    · rw [List.mem_singleton.mp hx] at hbid
      have hbid2 : s.nextId = q.bid := hbid
      omega

/-- A freshly returned pointer's region is `RegionOK` in the post state. -/
theorem regionOK_fresh {s : State} (hs : AllocInv s) {n : Nat} {p : Ptr}
    (hp : (memctx_alloc s n).1 = some p) :
    RegionOK (memctx_alloc s n).2 p (alignUp n) := by
  rcases memctx_alloc_cases s n with ⟨h1, -, -⟩ | ⟨l1, b, l2, he, -, hfit, -, h1, h2⟩ |
    ⟨-, -, h1, h2⟩
  · rw [h1] at hp
    exact absurd hp (by simp)
  · rw [h1] at hp
    obtain rfl : p = ⟨b.bid, b.consumed⟩ := (Option.some.inj hp).symm
    rw [h2]
    have hbmem : b ∈ s.blocks := by rw [he]; simp
    have hnd : ((l1 ++ b :: l2).map Block.bid).Nodup := by
      have := hs.2.2
      rw [he] at this
      exact this
    refine ⟨hs.2.1 b hbmem, ?_⟩
    intro x hx hbid
    simp only [List.mem_append, List.mem_cons] at hx
    rcases hx with hx | rfl | hx
    · exact absurd (nodup_bid_eq hnd (Or.inl hx) hbid) (by simp)
    · rcases bump_region_cases (hs.1 b hbmem) hfit with hmod | ⟨hcap0, hmod, hW⟩
      · left
        show b.consumed + alignUp n ≤ (b.consumed + alignUp n) % W
        rw [hmod]
      · right
        exact ⟨hcap0, hmod⟩
    · exact absurd (nodup_bid_eq hnd (Or.inr hx) hbid) (by simp)
  · rw [h1] at hp
    obtain rfl : p = ⟨s.nextId, 0⟩ := (Option.some.inj hp).symm
    rw [h2]
    refine ⟨Nat.lt_succ_self _, ?_⟩
    intro x hx hbid
    rcases List.mem_append.mp hx with hx | hx
    · have := hs.2.1 x hx
      have hbid2 : x.bid = s.nextId := hbid
      omega
    · rw [List.mem_singleton.mp hx]
      left
      show (0 : Nat) + alignUp n ≤ alignUp n
      omega

/-- A fresh region returned by `memctx_alloc` is disjoint from every region
that is `RegionOK` in the pre state. -/
theorem fresh_region_disjoint {s : State} (hs : AllocInv s) {q : Ptr} {e : Nat}
    (hq : RegionOK s q e) {n : Nat} {p : Ptr}
    (hp : (memctx_alloc s n).1 = some p) :
    ¬ overlaps (q, e) (p, alignUp n) := by
  rcases memctx_alloc_cases s n with ⟨h1, -, -⟩ | ⟨l1, b, l2, he, -, hfit, -, h1, -⟩ |
    ⟨-, -, h1, -⟩
  · rw [h1] at hp
    exact absurd hp (by simp)
  · rw [h1] at hp
    obtain rfl : p = ⟨b.bid, b.consumed⟩ := (Option.some.inj hp).symm
    intro hov
    obtain ⟨hbid, hlt1, hlt2⟩ := hov
    have hbmem : b ∈ s.blocks := by rw [he]; simp
    have hbid2 : q.bid = b.bid := hbid
    rcases hq.2 b hbmem hbid2.symm with hset | ⟨hcap0, hcon0⟩
    · simp only at hlt1 hlt2
      omega
    · have ha0 : alignUp n = 0 := by
        have hgd := hs.1 b hbmem
        have := free_dead hcap0 hcon0
        omega
      simp only at hlt1 hlt2
      omega
  · rw [h1] at hp
    obtain rfl : p = ⟨s.nextId, 0⟩ := (Option.some.inj hp).symm
    intro hov
    obtain ⟨hbid, -, -⟩ := hov
    have hbid2 : q.bid = s.nextId := hbid
    have := hq.1
    omega

/-- Core induction for the non-overlap theorem: running any further sizes
from a state whose environment regions are all `RegionOK` produces pairwise
disjoint regions, each also disjoint from the environment. -/
theorem allocSteps_disjoint_aux (sizes : List Nat) :
    ∀ (s : State) (E : List (Ptr × Nat)), AllocInv s →
      (∀ r ∈ E, RegionOK s r.1 r.2) → (∀ m ∈ sizes, m < W) →
      ((allocSteps s sizes).1.Pairwise fun x y =>
          ∀ p q, x.1 = some p → y.1 = some q → ¬ overlaps (p, x.2) (q, y.2)) ∧
        (∀ y ∈ (allocSteps s sizes).1, ∀ r ∈ E, ∀ q, y.1 = some q →
          ¬ overlaps (r.1, r.2) (q, y.2)) := by
  induction sizes with
  | nil =>
    intro s E hs hE hsz
    constructor
    · exact List.Pairwise.nil
    · intro y hy
      simp [allocSteps] at hy
  | cons n ns ih =>
    intro s E hs hE hsz
    have hn : n < W := hsz n (by simp)
    have hsz2 : ∀ m ∈ ns, m < W := fun m hm => hsz m (by simp [hm])
    have hInv2 : AllocInv (memctx_alloc s n).2 := allocInv_alloc hs hn
    simp only [allocSteps]
    rcases hp : (memctx_alloc s n).1 with _ | p
    · have hE2 : ∀ r ∈ E, RegionOK (memctx_alloc s n).2 r.1 r.2 :=
        fun r hr => regionOK_alloc hs (hE r hr) n
      obtain ⟨ihP, ihE⟩ := ih (memctx_alloc s n).2 E hInv2 hE2 hsz2
      constructor
      · refine List.Pairwise.cons ?_ ihP
        intro y hy p' q hp' hq
        exact absurd hp' (by simp)
      · intro y hy r hr q hq
        rcases List.mem_cons.mp hy with rfl | hy
        · exact absurd hq (by simp)
        · exact ihE y hy r hr q hq
    · have hE2 : ∀ r ∈ (p, alignUp n) :: E, RegionOK (memctx_alloc s n).2 r.1 r.2 := by
        intro r hr
        rcases List.mem_cons.mp hr with rfl | hr
        · exact regionOK_fresh hs hp
        · exact regionOK_alloc hs (hE r hr) n
      obtain ⟨ihP, ihE⟩ := ih (memctx_alloc s n).2 _ hInv2 hE2 hsz2
      constructor
      · refine List.Pairwise.cons ?_ ihP
        intro y hy p' q hp' hq
        obtain rfl : p' = p := by simpa using hp'.symm
        exact ihE y hy (p', alignUp n) (by simp) q hq
      · intro y hy r hr q hq
        rcases List.mem_cons.mp hy with rfl | hy
        · obtain rfl : q = p := by simpa using hq.symm
          exact fresh_region_disjoint hs (hE r hr) hp
        · exact ihE y hy r (List.mem_cons_of_mem _ hr) q hq

theorem newCapacity_eq_math {a : Nat} (hw : a + PAGE - 1 < W) :
    newCapacity a = if a ≤ PAGE then PAGE else (a + PAGE - 1) / PAGE * PAGE := by
  unfold newCapacity
  by_cases h : PAGE < a
  · rw [if_pos h, if_neg (by omega), Nat.mod_eq_of_lt hw]
  · rw [if_neg h, if_pos (by omega)]

-- Claim theorems.

/-- C8: `memctx_alloc` with `size == 0` on any handle, and with an absent
(NULL) handle for any size, both return the NULL failure sentinel and leave
every block of every context unchanged. -/
theorem alloc_zero_or_absent_noop (s : State) (n : Nat) :
    memctx_alloc_top (some s) 0 = (none, some s) ∧
    memctx_alloc_top none n = (none, none) := by
  constructor
  · simp [memctx_alloc_top, memctx_alloc]
  · rfl

/-- C10: for every reachable context and every size above `SIZE_MAX - 7`
(whose 8-byte rounding wraps to 0 modulo `2 ^ 64`), `memctx_alloc` returns a
non-NULL pointer into the head block — the first block of the chain, which in
every reachable state has positive trailing free space, hence is the first
block with any trailing free space — while increasing its consumed mark by 0:
the state is unchanged and a second identical call returns the same
pointer. -/
theorem alloc_wrap_size (s : State) (hs : Reachable s) (size : Nat)
    (h1 : W - 8 < size) (h2 : size < W) :
    ∃ hd rest, s.blocks = hd :: rest ∧ 0 < hd.free ∧
      (memctx_alloc s size).1 = some ⟨hd.bid, hd.consumed⟩ ∧
      (memctx_alloc s size).2 = s ∧
      (memctx_alloc (memctx_alloc s size).2 size).1 = some ⟨hd.bid, hd.consumed⟩ := by
  obtain ⟨⟨hg, -, -⟩, hd, rest, hbl, hcap, -, hdvd, hle⟩ := baseInv_of_reachable hs
  have ha0 : alignUp size = 0 := alignUp_of_wrap h1 h2
  have hhdw : hd.capacity < W := (hg hd (by rw [hbl]; simp)).1
  have hconw : hd.consumed < W := (hg hd (by rw [hbl]; simp)).2.1
  have hfree : hd.free = hd.capacity - hd.consumed :=
    wsub_of_le (hcap ▸ hle) hhdw
  have hfree0 : 0 < hd.free := by
    rw [hfree, hcap]
    obtain ⟨k, hk⟩ := hdvd
    unfold PAGE at *
    omega
  have hsz : size ≠ 0 := by
    unfold W at *
    omega
  have hbf : bumpFirst (alignUp size) s.blocks = some (⟨hd.bid, hd.consumed⟩, s.blocks) := by
    rw [hbl, ha0, bumpFirst, if_pos (Nat.zero_le _)]
    have hmod : (hd.consumed + 0) % W = hd.consumed := by
      rw [Nat.add_zero]
      exact Nat.mod_eq_of_lt hconw
    rw [hmod]
  have hres1 : (memctx_alloc s size).1 = some ⟨hd.bid, hd.consumed⟩ := by
    simp [memctx_alloc, hsz, hbf]
  have hres2 : (memctx_alloc s size).2 = s := by
    simp only [memctx_alloc, if_neg hsz, hbf]
  refine ⟨hd, rest, hbl, hfree0, hres1, hres2, ?_⟩
  rw [hres2]
  exact hres1

/-- C1 counterexample: at `size = 2^64 - 1` (nonzero) the rounding wraps: the
aligned size the code uses is 0, although the least multiple of the pointer
width that is `≥ size` is `2^64 ≠ 0`; the call hands out a pointer even though
no block has `2^64` bytes of trailing free space, and no block's consumed mark
grows by that amount (the state is unchanged). -/
theorem alloc_roundup_wrap_cex :
    (memctx_alloc memctx (W - 1)).1 = some ⟨0, 0⟩ ∧
    (memctx_alloc memctx (W - 1)).2 = memctx ∧
    8 * ((W - 1 + 7) / 8) = W ∧ alignUp (W - 1) = 0 ∧ (0 : Nat) ≠ W ∧
    (∀ b ∈ memctx.blocks, b.free < 8 * ((W - 1 + 7) / 8)) := by decide

/-- C1 (amended: requested sizes at most `SIZE_MAX - 7`, so that the rounding
cannot wrap): on any safely reachable context, when some block has enough
trailing free space, `memctx_alloc` rounds the size up to the next multiple
of the pointer width, serves the first block (in creation order) whose
trailing free space `capacity - consumed` is at least that aligned size,
returns that block's buffer at its old consumed offset, increases only that
block's consumed mark by the aligned size, and the returned offset is a
multiple of the pointer width (so the pointer stays pointer-aligned). -/
theorem alloc_first_fit (s : State) (size : Nat) (hs : SafeReachable s)
    (h0 : 0 < size) (hw : size ≤ W - 8)
    (hfit : ∃ b ∈ s.blocks, alignUp size ≤ b.free) :
    (8 ∣ alignUp size ∧ size ≤ alignUp size ∧ alignUp size < size + 8) ∧
    ∃ l1 b l2, s.blocks = l1 ++ b :: l2 ∧
      (∀ c ∈ l1, c.free < alignUp size) ∧ alignUp size ≤ b.free ∧
      (memctx_alloc s size).1 = some ⟨b.bid, b.consumed⟩ ∧
      (memctx_alloc s size).2 =
        ⟨l1 ++ { b with consumed := b.consumed + alignUp size } :: l2, s.nextId⟩ ∧
      b.free = b.capacity - b.consumed ∧ 8 ∣ b.consumed := by
  obtain ⟨⟨hgd, -, -⟩, -, hcc, hdv, hff⟩ := inv_of_safeReachable hs
  have hsw : size + 7 < W := by
    unfold W at *
    omega
  have hround : 8 ∣ alignUp size ∧ size ≤ alignUp size ∧ alignUp size < size + 8 :=
    ⟨alignUp_dvd size, alignUp_ge hsw, alignUp_lt hsw⟩
  rcases memctx_alloc_cases s size with ⟨-, -, h0'⟩ | ⟨l1, b, l2, he, hl1, hbfit, -, h1, h2⟩ |
    ⟨hnofit, -, -, -⟩
  · omega
  · have hbmem : b ∈ s.blocks := by rw [he]; simp
    have hgood : b.consumed ≤ b.capacity := hcc b hbmem
    have hcw : b.capacity < W := (hgd b hbmem).1
    have hbg := bump_good hgood hcw hbfit
    refine ⟨hround, l1, b, l2, he, hl1, hbfit, h1, ?_, wsub_of_le hgood hcw, ?_⟩
    · rw [h2, hbg.1]
    · rcases hfd : b.fileData with _ | d
      · exact hdv b hbmem hfd
      · exfalso
        have hfull : b.consumed = b.capacity := hff b hbmem (by rw [hfd]; rfl)
        have hfr : b.free = 0 := by
          unfold Block.free
          rw [hfull]
          exact wsub_self hcw
        have h8 : 8 ≤ alignUp size := by
          obtain ⟨k, hk⟩ := hround.1
          omega
        omega
  · exfalso
    obtain ⟨b, hbmem, hble⟩ := hfit
    have := hnofit b hbmem
    omega

theorem alloc_first_fit_witness :
    SafeReachable memctx ∧ 0 < 4000 ∧ 4000 ≤ W - 8 ∧
    (∃ b ∈ memctx.blocks, alignUp 4000 ≤ b.free) ∧
    ((8 ∣ alignUp 4000 ∧ 4000 ≤ alignUp 4000 ∧ alignUp 4000 < 4000 + 8) ∧
      ∃ l1 b l2, memctx.blocks = l1 ++ b :: l2 ∧
        (∀ c ∈ l1, c.free < alignUp 4000) ∧ alignUp 4000 ≤ b.free ∧
        (memctx_alloc memctx 4000).1 = some ⟨b.bid, b.consumed⟩ ∧
        (memctx_alloc memctx 4000).2 =
          ⟨l1 ++ { b with consumed := b.consumed + alignUp 4000 } :: l2, memctx.nextId⟩ ∧
        b.free = b.capacity - b.consumed ∧ 8 ∣ b.consumed) :=
  ⟨Relation.ReflTransGen.refl, by decide, by decide, by decide,
    alloc_first_fit memctx 4000 Relation.ReflTransGen.refl (by decide) (by decide) (by decide)⟩

/-- C2 counterexample: at `size = 2^64 - 4064` no block fits, and the append
path's page rounding `aligned_size + MEMCTX_PAGE_SIZE - 1` wraps modulo
`2 ^ 64`: the appended block's capacity is 0, not the aligned size rounded up
to the next multiple of the page size (which is nonzero). -/
theorem alloc_append_overflow_cex :
    (∀ b ∈ memctx.blocks, b.free < alignUp (W - 4064)) ∧
    PAGE < alignUp (W - 4064) ∧
    (memctx_alloc memctx (W - 4064)).2.blocks.getLast?.map Block.capacity = some 0 ∧
    (alignUp (W - 4064) + PAGE - 1) / PAGE * PAGE ≠ 0 ∧
    (memctx_alloc memctx (W - 4064)).2.blocks.length = 2 := by decide

/-- C2 (amended: requested sizes at most `SIZE_MAX - 4071`, so that the page
rounding cannot wrap): when no block of the chain has room for the aligned
size, `memctx_alloc` appends exactly one block at the tail whose capacity is
the page size when the aligned size fits within one page and otherwise the
aligned size rounded up to the next multiple of the page size; the new
block's consumed mark is set directly to the aligned size and the returned
pointer is the start of the new block's buffer. -/
theorem alloc_append_page_rounding (s : State) (size : Nat) (h0 : 0 < size)
    (hw : size ≤ W - 4072) (hnofit : ∀ b ∈ s.blocks, b.free < alignUp size) :
    (memctx_alloc s size).1 = some ⟨s.nextId, 0⟩ ∧
    (memctx_alloc s size).2.blocks = s.blocks ++
      [⟨s.nextId,
        if alignUp size ≤ PAGE then PAGE else (alignUp size + PAGE - 1) / PAGE * PAGE,
        alignUp size, none⟩] ∧
    alignUp size ≤
      (if alignUp size ≤ PAGE then PAGE else (alignUp size + PAGE - 1) / PAGE * PAGE) ∧
    (memctx_alloc s size).2.blocks.length = s.blocks.length + 1 ∧
    (memctx_alloc s size).2.nextId = s.nextId + 1 := by
  have hale : alignUp size ≤ W - 4072 := by
    refine alignUp_le (by unfold W; omega) hw (by unfold W; omega)
  have hwrapfree : alignUp size + PAGE - 1 < W := by
    unfold W PAGE at *
    omega
  have hcap := newCapacity_eq_math hwrapfree
  have hge : alignUp size ≤ newCapacity (alignUp size) := newCapacity_ge hwrapfree
  rcases memctx_alloc_cases s size with ⟨-, -, h0'⟩ | ⟨l1, b, l2, he, -, hbfit, -, -, -⟩ |
    ⟨-, -, h1, h2⟩
  · omega
  · exfalso
    have := hnofit b (by rw [he]; simp)
    omega
  · rw [h1, h2, hcap] at *
    refine ⟨rfl, by simp, ?_, by simp, rfl⟩
    rw [← hcap]
    exact hge

theorem alloc_append_page_rounding_witness :
    0 < 5000 ∧ 5000 ≤ W - 4072 ∧ (∀ b ∈ memctx.blocks, b.free < alignUp 5000) ∧
    ((memctx_alloc memctx 5000).1 = some ⟨memctx.nextId, 0⟩ ∧
      (memctx_alloc memctx 5000).2.blocks = memctx.blocks ++
        [⟨memctx.nextId,
          if alignUp 5000 ≤ PAGE then PAGE else (alignUp 5000 + PAGE - 1) / PAGE * PAGE,
          alignUp 5000, none⟩] ∧
      alignUp 5000 ≤
        (if alignUp 5000 ≤ PAGE then PAGE else (alignUp 5000 + PAGE - 1) / PAGE * PAGE) ∧
      (memctx_alloc memctx 5000).2.blocks.length = memctx.blocks.length + 1 ∧
      (memctx_alloc memctx 5000).2.nextId = memctx.nextId + 1) ∧
    (memctx_alloc memctx 5000).2.blocks.getLast?.map Block.capacity = some 8138 ∧
    (memctx_alloc memctx 5000).2.blocks.length = 2 :=
  ⟨by decide, by decide, by decide,
    alloc_append_page_rounding memctx 5000 (by decide) (by decide) (by decide),
    by decide, by decide⟩

/-- C3 counterexample: the state reached from a fresh context by the single
allocation `memctx_alloc(ctx, 2^64 - 4064)` is reachable, yet its appended
block has `capacity = 0 < consumed`: the invariant `consumed ≤ capacity` does
not hold in every reachable state. -/
theorem consumed_gt_capacity_reachable_cex :
    Reachable (memctx_alloc memctx (W - 4064)).2 ∧
    ∃ b ∈ (memctx_alloc memctx (W - 4064)).2.blocks, b.capacity < b.consumed :=
  ⟨Relation.ReflTransGen.single (Step.alloc memctx (W - 4064) (by decide)), by decide⟩

/-- C3 (amended: allocation sizes outside `[SIZE_MAX - 4070, SIZE_MAX - 7]`,
the window in which the append path's page rounding wraps): in every state
reachable from `memctx()` by such allocations, `memctx_open_file` and
defined `memctx_free_file` calls, every block of the chain satisfies
`0 ≤ consumed ≤ capacity`. -/
theorem consumed_le_capacity_invariant (s : State) (hs : SafeReachable s) :
    ∀ b ∈ s.blocks, 0 ≤ b.consumed ∧ b.consumed ≤ b.capacity :=
  fun b hb => ⟨Nat.zero_le _, (inv_of_safeReachable hs).2.2.1 b hb⟩

theorem consumed_le_capacity_invariant_witness :
    SafeReachable memctx ∧
    ∀ b ∈ memctx.blocks, 0 ≤ b.consumed ∧ b.consumed ≤ b.capacity :=
  ⟨Relation.ReflTransGen.refl,
    consumed_le_capacity_invariant memctx Relation.ReflTransGen.refl⟩

/-- C4: later allocations never disturb earlier ones.  First conjunct (frame
of one call): `memctx_alloc` either does nothing, or rewrites exactly one
block's consumed mark leaving every other block — identity, capacity, buffer
and position in the chain — unchanged, or appends one fresh block at the tail;
the allocator itself never writes into any buffer (no operation of the model
touches `fileData`), so bytes written by the caller persist.  Second conjunct:
along any run of `memctx_alloc` calls from a reachable context, the regions
backing any two returned pointers (each of extent the aligned size) never
overlap: no later allocation hands out memory backing an earlier pointer. -/
theorem alloc_frame_and_no_overlap :
    (∀ (s : State) (n : Nat),
      ((memctx_alloc s n).1 = none ∧ (memctx_alloc s n).2 = s) ∨
      (∃ l1 b l2, s.blocks = l1 ++ b :: l2 ∧
        (memctx_alloc s n).2 =
          ⟨l1 ++ { b with consumed := (b.consumed + alignUp n) % W } :: l2,
            s.nextId⟩) ∨
      ((memctx_alloc s n).2 =
        ⟨s.blocks ++ [⟨s.nextId, newCapacity (alignUp n), alignUp n, none⟩],
          s.nextId + 1⟩)) ∧
    (∀ (s : State), Reachable s → ∀ (sizes : List Nat), (∀ m ∈ sizes, m < W) →
      (allocSteps s sizes).1.Pairwise fun x y =>
        ∀ p q, x.1 = some p → y.1 = some q → ¬ overlaps (p, x.2) (q, y.2)) := by
  constructor
  · intro s n
    rcases memctx_alloc_cases s n with ⟨h1, h2, -⟩ | ⟨l1, b, l2, he, -, -, -, -, h2⟩ |
      ⟨-, -, -, h2⟩
    · exact Or.inl ⟨h1, h2⟩
    · exact Or.inr (Or.inl ⟨l1, b, l2, he, h2⟩)
    · exact Or.inr (Or.inr h2)
  · intro s hs sizes hsz
    exact (allocSteps_disjoint_aux sizes s [] (baseInv_of_reachable hs).1
      (by simp) hsz).1

theorem alloc_frame_and_no_overlap_witness :
    Reachable memctx ∧ (∀ m ∈ [8, 4000, 5000], m < W) ∧
    (allocSteps memctx [8, 4000, 5000]).1.Pairwise (fun x y =>
      ∀ p q, x.1 = some p → y.1 = some q → ¬ overlaps (p, x.2) (q, y.2)) :=
  ⟨Relation.ReflTransGen.refl, by decide,
    alloc_frame_and_no_overlap.2 memctx Relation.ReflTransGen.refl [8, 4000, 5000]
      (by decide)⟩

/-- C5 failing input: on a live context (fresh context after two 8-byte
allocations) pass `memctx_free_file` the second allocation's pointer — a
non-NULL pointer that is no block's `data` address (it is the head buffer at
offset 8).  The search loop exhausts the chain with `current == NULL`, and
the code then executes `prev->next = current->next` and
`free(current->data)`: a null-pointer dereference (the model's undefined
outcome `none`), not a completed call that leaves the chain unchanged. -/
theorem free_file_no_match_cex :
    (memctx_alloc (memctx_alloc memctx 8).2 8).1 = some ⟨0, 8⟩ ∧
    memctx_free_file (some (memctx_alloc (memctx_alloc memctx 8).2 8).2)
      (some ⟨0, 8⟩) = none ∧
    (∀ b ∈ (memctx_alloc (memctx_alloc memctx 8).2 8).2.blocks,
      matchesBlock ⟨0, 8⟩ b = false) := by decide

/-- C9 failing input: a context with exactly one block.  The measuring pass
sizes the buffer to the single line's exact length L, but the second pass
passes the whole `buffer_size` (= L) as the `snprintf` bound, so only L - 1
bytes of the line are stored: the returned text drops the line's final byte
(the newline) instead of equaling the full line.  With two or more blocks
every line fits under the shared bound and the concatenation is complete. -/
theorem description_truncates_single_line_cex :
    (memctx_description [[104, 101, 97, 100, 10]]).length =
      ([[104, 101, 97, 100, 10]].map List.length).sum + 1 ∧
    cString (memctx_description [[104, 101, 97, 100, 10]]) = [104, 101, 97, 100] ∧
    cString (memctx_description [[104, 101, 97, 100, 10]]) ≠
      List.flatten [[104, 101, 97, 100, 10]] ∧
    cString (memctx_description [[104, 101, 97, 100, 10], [116, 10]]) =
      List.flatten [[104, 101, 97, 100, 10], [116, 10]] := by decide

/-- C6: a successful `memctx_open_file` returns the file's byte length and the
start of a fresh buffer holding the complete contents followed by a
terminating zero byte; it appends exactly one block at the tail, whose
capacity and consumed mark both equal the file length (so its trailing free
space is zero), raising the block count by exactly 1; and no `memctx_alloc`
call on any well-formed state ever returns a pointer into a file block. -/
theorem open_file_success (s : State)
    (contents : List Nat) (hne : contents ≠ []) (hlen : contents.length < 2 ^ 63) :
    (memctx_open_file s (some contents) true true true).result =
      some (⟨s.nextId, 0⟩, contents.length) ∧
    (memctx_open_file s (some contents) true true true).state.blocks =
      s.blocks ++
        [⟨s.nextId, contents.length, contents.length, some (contents ++ [0])⟩] ∧
    (memctx_open_file s (some contents) true true true).state.blocks.length =
      s.blocks.length + 1 ∧
    Block.free ⟨s.nextId, contents.length, contents.length,
      some (contents ++ [0])⟩ = 0 ∧
    (∀ (t : State) (size : Nat) (b : Block) (p : Ptr), Inv t → b ∈ t.blocks →
      b.fileData.isSome → (memctx_alloc t size).1 = some p → p.bid ≠ b.bid) := by
  have hl0 : contents.length ≠ 0 := by simpa using hne
  refine ⟨?_, ?_, ?_, ?_, ?_⟩
  · simp [memctx_open_file, hl0]
  · simp [memctx_open_file, hl0]
  · simp [memctx_open_file, hl0]
  · have hclw : contents.length < W := by unfold W at *; omega
    unfold Block.free
    exact wsub_self hclw
  · intro t size b p hInv hbmem hbfile hp
    obtain ⟨⟨hgd, hid, hnd⟩, hh, hcc, hdv, hff⟩ := hInv
    rcases memctx_alloc_cases t size with ⟨h1, -, -⟩ |
      ⟨l1, c, l2, he, hl1, hcfit, -, h1, -⟩ | ⟨-, -, h1, -⟩
    · rw [h1] at hp
      exact absurd hp (by simp)
    · rw [h1] at hp
      obtain rfl : p = ⟨c.bid, c.consumed⟩ := (Option.some.inj hp).symm
      intro hbid
      have hbid2 : c.bid = b.bid := hbid
      have hcmem : c ∈ t.blocks := by rw [he]; simp
      obtain rfl : c = b := List.inj_on_of_nodup_map hnd hcmem hbmem hbid2
      have hfull : c.consumed = c.capacity := hff c hcmem hbfile
      have hfr : c.free = 0 := by
        unfold Block.free
        rw [hfull]
        exact wsub_self (hgd c hcmem).1
      have ha0 : alignUp size = 0 := by omega
      obtain rfl : l1 = [] := by
        rcases l1 with _ | ⟨x, l1⟩
        · rfl
        · exact absurd (hl1 x (by simp)) (by rw [ha0]; omega)
      obtain ⟨hd, rest, hbl, -, hfd, -, -⟩ := hh
      rw [he] at hbl
      obtain ⟨rfl, -⟩ : hd = c ∧ rest = l2 := by simpa using hbl.symm
      rw [hfd] at hbfile
      exact absurd hbfile (by simp)
    · rw [h1] at hp
      obtain rfl : p = ⟨t.nextId, 0⟩ := (Option.some.inj hp).symm
      intro hbid
      have hbid2 : t.nextId = b.bid := hbid
      have := hid b hbmem
      omega

theorem open_file_success_witness :
    List.replicate 30 65 ≠ [] ∧
    (List.replicate 30 65).length < 2 ^ 63 ∧
    ((memctx_open_file memctx (some (List.replicate 30 65)) true true true).result =
      some (⟨memctx.nextId, 0⟩, (List.replicate 30 65).length) ∧
      (memctx_open_file memctx (some (List.replicate 30 65)) true true
        true).state.blocks.length = memctx.blocks.length + 1) ∧
    (memctx_open_file memctx (some (List.replicate 30 65)) true true true).result =
      some (⟨1, 0⟩, 30) ∧
    (memctx_open_file memctx (some (List.replicate 30 65)) true true
      true).state.blocks.length = 2 :=
  ⟨by decide, by decide,
    ⟨(open_file_success memctx (List.replicate 30 65) (by decide) (by decide)).1,
      (open_file_success memctx (List.replicate 30 65) (by decide) (by decide)).2.2.1⟩,
    by decide, by decide⟩

/-- C7: whenever `memctx_open_file` fails — absent context handle, absent
filename or unopenable file, empty file, failed allocation, or a read that
does not complete — it returns the zero sentinel with the out-buffer NULL,
the context chain is exactly as it was before the call, and every heap object
allocated during the attempt has been freed before returning. -/
theorem open_file_failure_cleanup (octx : Option State) (file : Option (List Nat))
    (recOk dataOk readOk : Bool)
    (hfail : octx = none ∨ file = none ∨ file = some [] ∨ recOk = false ∨
      dataOk = false ∨ readOk = false) :
    (memctx_open_file_top octx file recOk dataOk readOk).result = none ∧
    (memctx_open_file_top octx file recOk dataOk readOk).ctx = octx ∧
    List.Perm (memctx_open_file_top octx file recOk dataOk readOk).freed
      (memctx_open_file_top octx file recOk dataOk readOk).allocated := by
  rcases octx with _ | s
  · exact ⟨rfl, rfl, List.Perm.refl _⟩
  · rcases file with _ | c
    · exact ⟨rfl, rfl, List.Perm.refl _⟩
    · by_cases hc : c.length = 0
      · refine ⟨?_, ?_, ?_⟩ <;> simp [memctx_open_file_top, memctx_open_file, hc]
      · cases recOk
        · refine ⟨?_, ?_, ?_⟩ <;> simp [memctx_open_file_top, memctx_open_file, hc]
        · cases dataOk
          · refine ⟨?_, ?_, ?_⟩ <;> simp [memctx_open_file_top, memctx_open_file, hc]
          · cases readOk
            · refine ⟨?_, ?_, ?_⟩ <;>
                simp only [memctx_open_file_top, memctx_open_file, hc, if_neg,
                  Bool.not_true, Bool.not_false, if_true, if_false, ite_false,
                  ite_true, Bool.false_eq_true, not_false_eq_true]
              · exact List.Perm.swap 0 1 []
            · rcases hfail with h | h | h | h | h | h
              · exact absurd h (by simp)
              · exact absurd h (by simp)
              · have hce : c = [] := by simpa using h
                rw [hce] at hc
                exact absurd rfl hc
              · exact absurd h (by simp)
              · exact absurd h (by simp)
              · exact absurd h (by simp)

theorem open_file_failure_cleanup_witness :
    (some memctx = none ∨ (some [65] : Option (List Nat)) = none ∨
      some [65] = some ([] : List Nat) ∨ true = false ∨ true = false ∨
      false = false) ∧
    ((memctx_open_file_top (some memctx) (some [65]) true true false).result = none ∧
      (memctx_open_file_top (some memctx) (some [65]) true true false).ctx =
        some memctx ∧
      List.Perm (memctx_open_file_top (some memctx) (some [65]) true true false).freed
        (memctx_open_file_top (some memctx) (some [65]) true true false).allocated) :=
  ⟨Or.inr (Or.inr (Or.inr (Or.inr (Or.inr rfl)))),
    open_file_failure_cleanup (some memctx) (some [65]) true true false
      (Or.inr (Or.inr (Or.inr (Or.inr (Or.inr rfl)))))⟩

theorem alloc_wrap_size_witness :
    Reachable memctx ∧ W - 8 < W - 1 ∧ W - 1 < W ∧
    (∃ hd rest, memctx.blocks = hd :: rest ∧ 0 < hd.free ∧
      (memctx_alloc memctx (W - 1)).1 = some ⟨hd.bid, hd.consumed⟩ ∧
      (memctx_alloc memctx (W - 1)).2 = memctx ∧
      (memctx_alloc (memctx_alloc memctx (W - 1)).2 (W - 1)).1 =
        some ⟨hd.bid, hd.consumed⟩) :=
  ⟨Relation.ReflTransGen.refl, by decide, by decide,
    alloc_wrap_size memctx Relation.ReflTransGen.refl (W - 1) (by decide) (by decide)⟩

end Memctx
